import Mathlib

/-!
# Verification of the retroterm terminal pipeline

Shallow embedding of the byte-stream processing core of the retroterm
BBS terminal server (Go), together with proofs about the embedded
functions.  Bytes are modelled as `Nat` (all source operations are
comparisons and copies, so no overflow modelling is needed); byte
slices are `List Nat`.

Embedded components:
* `ansi_enhanced.go` — `ANSIEnhancedProcessor.ProcessANSIData` and its
  helpers `isSequenceComplete`, `processCompleteSequence`;
* the telnet negotiation filter `processTelnetData` (clean-stream
  computation; negotiation replies are socket side effects and are not
  part of the returned value);
* the lrzsz ZMODEM receiver `ProcessData` with `findZmodemStartIndex`;
* the per-chunk display/diversion decision of `readTelnet`;
* `normalizeCSISGRAny`;
* `translatePETSCIIToANSI`;
* the allow-list check of the `connect` branch of `handleWebSocket`.
-/

/-! ## ANSIEnhancedProcessor (ansi_enhanced.go) -/

/-- `bytes.Index`: the first index at which `pat` occurs in `data`,
`none` when it does not occur. -/
def bytesIndex (pat data : List Nat) : Option Nat :=
  (List.range (data.length + 1)).find? (fun i => pat.isPrefixOf (data.drop i))

/-- `bytes.Contains`: whether `pat` occurs in `data`. -/
def bytesContains (data pat : List Nat) : Bool :=
  (bytesIndex pat data).isSome

/-- The mutable state of `ANSIEnhancedProcessor`: `inSequence` and
`sequenceBuffer` (the `debugMode` flag only controls logging and is
omitted). -/
structure AnsiState where
  inSequence : Bool
  sequenceBuffer : List Nat
deriving DecidableEq, Repr

/-- `isSequenceComplete` from `ansi_enhanced.go`: checks whether
`sequenceBuffer` holds a complete ANSI sequence.  The OSC scan looks at
positions `i ≥ 2` for a BEL byte, or for `ESC \` ending at position
`i`; the pair scan is modelled by zipping the buffer shifted by one and
by two. -/
def isSequenceComplete (buf : List Nat) : Bool :=
  if buf.length < 2 then false
  else
    let c := buf.getD 1 0
    let base : Bool :=
      if c = 91 then -- '[' CSI: look for a final byte 0x40-0x7E
        (buf.drop 2).any (fun x => decide (64 ≤ x) && decide (x ≤ 126))
      else if c = 93 then -- ']' OSC: BEL, or ESC \
        ((buf.drop 2).any (fun x => x == 7)) ||
        (((buf.drop 1).zip (buf.drop 2)).any (fun q => q.1 == 27 && q.2 == 92))
      else if c = 40 ∨ c = 41 ∨ c = 42 ∨ c = 43 then -- charset selection
        decide (3 ≤ buf.length)
      else if c = 55 ∨ c = 56 then -- '7' '8' DECSC/DECRC
        true
      else if c = 99 ∨ c = 68 ∨ c = 77 ∨ c = 69 then -- 'c' 'D' 'M' 'E'
        true
      else -- two-character sequences
        decide (64 ≤ c) && decide (c ≤ 127)
    base || decide (100 < buf.length)

/-- `processCompleteSequence` from `ansi_enhanced.go`: fixes bare
`ESC[J` / `ESC[K` / `ESC[m`, and appends a cursor-home after
clear-screen variants.  Logging-only branches are identity. -/
def processCompleteSequence (buf : List Nat) : List Nat :=
  if buf = [27, 91, 74] then [27, 91, 48, 74]
  else if buf = [27, 91, 75] then [27, 91, 48, 75]
  else if buf = [27, 91, 109] then [27, 91, 48, 109]
  else if 4 ≤ buf.length ∧ buf.getD 0 0 = 27 ∧ buf.getD 1 0 = 91 then
    if buf = [27, 91, 50, 74] ∨ buf = [27, 91, 48, 59, 50, 74] then
      [27, 91, 50, 74, 27, 91, 72]
    else if bytesContains buf [50, 74] then
      buf ++ [27, 91, 72]
    else buf
  else buf

/-- One iteration of the byte loop in `ProcessANSIData`
(`ansi_enhanced.go` lines 27-116): returns the bytes appended to
`result` and the updated processor state.  C1 bytes other than
CSI/OSC/DCS/ST fall through to the ordinary handling, exactly as in the
Go `switch` inside the `0x80-0x9F` range check. -/
def ansiStep (p : AnsiState) (b : Nat) : List Nat × AnsiState :=
  if b = 155 then ([], ⟨true, [27, 91]⟩)
  else if b = 157 then ([], ⟨true, [27, 93]⟩)
  else if b = 144 then ([], ⟨true, [27, 80]⟩)
  else if b = 156 then
    if p.inSequence then
      (processCompleteSequence (p.sequenceBuffer ++ [27, 92]), ⟨false, []⟩)
    else ([27, 92], p)
  else if b = 12 then ([27, 91, 50, 74, 27, 91, 72], p)
  else if b = 14 ∨ b = 15 then ([b], p)
  else if b = 27 then ([], ⟨true, [27]⟩)
  else if p.inSequence then
    let buf := p.sequenceBuffer ++ [b]
    if isSequenceComplete buf then (processCompleteSequence buf, ⟨false, []⟩)
    else ([], ⟨true, buf⟩)
  else ([b], p)

/-- `ProcessANSIData` from `ansi_enhanced.go`: runs the byte loop and
then, as in lines 118-121, appends any incomplete `sequenceBuffer` to
the result **without resetting** `inSequence` or the buffer. -/
def ProcessANSIData (p : AnsiState) (data : List Nat) : List Nat × AnsiState :=
  let r := data.foldl (fun (acc : List Nat × AnsiState) b =>
    let s := ansiStep acc.2 b
    (acc.1 ++ s.1, s.2)) (([] : List Nat), p)
  (r.1 ++ r.2.sequenceBuffer, r.2)

/-- Feeding a list of chunks to one `ANSIEnhancedProcessor` in
sequence, concatenating all emitted output. -/
def ProcessChunks (p : AnsiState) : List (List Nat) → List Nat
  | [] => []
  | c :: cs =>
    let r := ProcessANSIData p c
    r.1 ++ ProcessChunks r.2 cs

/-! ## Telnet negotiation filter (`processTelnetData`) -/

/-- The clean-stream computation of `Client.processTelnetData`.
Negotiation replies are written to the socket and are not part of the
returned clean slice, so they are not modelled.  Control flow per the
source: a lone trailing IAC is skipped; `IAC IAC` emits one `0xFF` and
advances two; with at least three bytes available, `IAC cmd opt` for
`cmd` in `240..254` (a range that includes `SB = 250`) advances three;
otherwise two bytes are skipped — in particular `IAC SB` as the final
two bytes of the chunk takes the subnegotiation branch, whose scan loop
exits immediately (`j ≥ len`) and advances two. -/
def processTelnetData : List Nat → List Nat
  | [] => []
  | [b] => if b = 255 then [] else [b]
  | b :: b2 :: rest2 =>
    if b ≠ 255 then b :: processTelnetData (b2 :: rest2)
    else if b2 = 255 then 255 :: processTelnetData rest2
    else
      match rest2 with
      | [] => []
      | b3 :: rest3 =>
        if 240 ≤ b2 ∧ b2 ≤ 254 then processTelnetData rest3
        else processTelnetData (b3 :: rest3)

/-- The outbound IAC escaping in `forwardRzStdoutToRemote`
(zmodem module): every byte is copied and a literal `0xFF` is doubled. -/
def escapeIACForTelnet (s : List Nat) : List Nat :=
  s.foldr (fun b acc => (if b = 255 then [255, 255] else [b]) ++ acc) []

/-! ## LrzszReceiver (`ProcessData`, `findZmodemStartIndex`) -/

/-- The ZMODEM header patterns of `findZmodemStartIndex`. -/
def zmodemHeaderPatterns : List (List Nat) :=
  [[42, 42, 24, 66, 48, 48], [42, 42, 24, 65], [42, 42, 24, 67],
   [24, 66, 48, 48], [24, 67, 4]]

/-- `findZmodemStartIndex`: the least index at which any header pattern
occurs. -/
def findZmodemStartIndex (data : List Nat) : Option Nat :=
  match zmodemHeaderPatterns.filterMap (fun p => bytesIndex p data) with
  | [] => none
  | x :: xs => some (xs.foldl Nat.min x)

/-- The state of `LrzszReceiver` relevant to data routing: `active` and
the pre-activation lookback `buffer`.  Process handles and timestamps
are omitted. -/
structure RecvState where
  active : Bool
  buffer : List Nat
deriving DecidableEq, Repr

/-- Result of one `ProcessData` call: the pass-through data
(`remaining`), the `consumed` flag, the updated receiver state, and the
bytes written to the rz subprocess stdin (`[]` when nothing is
written). -/
structure ProcessResult where
  remaining : List Nat
  consumed : Bool
  state : RecvState
  rzWrite : List Nat
deriving DecidableEq, Repr

/-- `LrzszReceiver.ProcessData`.  Modelling notes: `startRz` is assumed
to succeed and `rzStdin` to be non-nil with successful writes (their
failure paths concern the external process, not the routing logic
settled here); the `zmodemStatus` notification and timestamps are
omitted.  Everything else follows the source: inactive → append to
lookback buffer, activate at a found header index and divert the
telnet-cleaned tail to rz, otherwise trim the buffer by dropping its
first 512 bytes whenever it exceeds 1024 and pass the chunk through;
active → divert the telnet-cleaned chunk to rz and consume it. -/
def ProcessData (l : RecvState) (data : List Nat) : ProcessResult :=
  if l.active = false then
    let buf := l.buffer ++ data
    match findZmodemStartIndex buf with
    | some startIdx =>
        { remaining := [], consumed := true, state := ⟨true, []⟩,
          rzWrite := processTelnetData (buf.drop startIdx) }
    | none =>
        let buf' := if 1024 < buf.length then buf.drop 512 else buf
        { remaining := data, consumed := false, state := ⟨false, buf'⟩, rzWrite := [] }
  else
    { remaining := [], consumed := true, state := l, rzWrite := processTelnetData data }

/-! ## readTelnet per-chunk display/diversion decision -/

/-- What one `readTelnet` iteration does with a received chunk:
`display = some d` when the terminal-output branch is entered with
clean data `d` (a `"data"` message is then produced from `d`), `none`
when the chunk produces no display output; `rzWrite` is what was
diverted to the rz subprocess. -/
structure SessionOutput where
  display : Option (List Nat)
  rzWrite : List Nat
deriving DecidableEq, Repr

/-- The chunk-routing logic of `readTelnet` (main module, lines
506-544) for a session whose `zmodemReceiver` is non-nil: feed the raw
chunk to `ProcessData`; when consumed, only a non-empty `remaining`
may be shown, otherwise the chunk is telnet-cleaned; when the receiver
is active after the call, all display output is suppressed.  `suppress`
abstracts the time-dependent `suppressZmodem` flag at the moment of the
final display check. -/
def readTelnetStep (st : RecvState) (suppress : Bool) (chunk : List Nat) :
    RecvState × SessionOutput :=
  let r := ProcessData st chunk
  let clean0 := if r.consumed then r.remaining else processTelnetData chunk
  let clean1 := if r.state.active then [] else clean0
  let disp := if clean1 ≠ [] ∧ r.state.active = false ∧ suppress = false
    then some clean1 else none
  (r.state, ⟨disp, r.rzWrite⟩)

/-- Iterated `readTelnetStep` over a list of (suppress flag, chunk)
pairs, collecting the per-chunk outputs. -/
def readTelnetRun (st : RecvState) : List (Bool × List Nat) → List SessionOutput
  | [] => []
  | (s, c) :: rest =>
    let r := readTelnetStep st s c
    r.2 :: readTelnetRun r.1 rest

/-! ## Theorems: C1, C5, C6, C7, C10 -/

/-- C1: the claim states that chunked processing through
`ProcessANSIData` equals whole-stream processing, with an incomplete
escape sequence saved as carry and no byte ever dropped or duplicated;
in particular chunk 1 ending in `ESC` followed by chunk 2 `[31m` must
yield `ESC[31m` exactly once.  The code violates this: the flush at the
end of `ProcessANSIData` emits the incomplete buffer without resetting
it, so the carried `ESC` is emitted again inside the completed sequence
of the next chunk, duplicating it.  This theorem evaluates both sides
at that failing input. -/
theorem c1_chunk_carry_duplicates_esc :
    ProcessChunks ⟨false, []⟩ [[27], [91, 51, 49, 109]] = [27, 27, 91, 51, 49, 109] ∧
    ProcessChunks ⟨false, []⟩ [[27, 91, 51, 49, 109]] = [27, 91, 51, 49, 109] ∧
    ProcessChunks ⟨false, []⟩ [[27], [91, 51, 49, 109]] ≠
      ProcessChunks ⟨false, []⟩ [[27, 91, 51, 49, 109]] := by
  decide

/-- An ordinary (non-IAC) byte passes through the telnet filter. -/
theorem processTelnetData_cons_ne {b : Nat} (hb : b ≠ 255) (rest : List Nat) :
    processTelnetData (b :: rest) = b :: processTelnetData rest := by
  cases rest with
  | nil => simp [processTelnetData, hb]
  | cons x xs =>
    rw [processTelnetData.eq_def]
    simp [hb]

/-- An escaped IAC pair decodes to one literal `0xFF`. -/
theorem processTelnetData_iac_iac (rest : List Nat) :
    processTelnetData (255 :: 255 :: rest) = 255 :: processTelnetData rest := by
  rw [processTelnetData.eq_def]
  simp

/-- C5: telnet IAC escaping round-trips — encoding any byte sequence by
doubling every literal `0xFF` (as `forwardRzStdoutToRemote` does) and
decoding through the telnet filter's escaped-IAC rule yields the
original sequence. -/
theorem c5_iac_escape_roundtrip (s : List Nat) :
    processTelnetData (escapeIACForTelnet s) = s := by
  induction s with
  | nil => rfl
  | cons b rest ih =>
    by_cases hb : b = 255
    · subst hb
      have he : escapeIACForTelnet (255 :: rest) = 255 :: 255 :: escapeIACForTelnet rest := by
        simp [escapeIACForTelnet]
      rw [he, processTelnetData_iac_iac, ih]
    · have he : escapeIACForTelnet (b :: rest) = b :: escapeIACForTelnet rest := by
        simp [escapeIACForTelnet, hb]
      rw [he, processTelnetData_cons_ne hb, ih]

/-- The telnet filter passes IAC-free data through unchanged. -/
theorem processTelnetData_no_iac (s : List Nat) (h : 255 ∉ s) :
    processTelnetData s = s := by
  induction s with
  | nil => rfl
  | cons b rest ih =>
    have hb : b ≠ 255 := fun hb => h (hb ▸ List.mem_cons_self b rest)
    rw [processTelnetData_cons_ne hb, ih (fun hm => h (List.mem_cons_of_mem b hm))]

/-- IAC-free data followed by `IAC SE` cleans to the data alone. -/
theorem processTelnetData_append_iac_se (payload : List Nat) (h : 255 ∉ payload) :
    processTelnetData (payload ++ [255, 240]) = payload := by
  induction payload with
  | nil => decide
  | cons p ps ih =>
    have hp : p ≠ 255 := fun hp => h (hp ▸ List.mem_cons_self p ps)
    rw [List.cons_append, processTelnetData_cons_ne hp,
      ih (fun hm => h (List.mem_cons_of_mem p hm))]

/-- C7 counterexample: the claim says that for a chunk whose
subnegotiation `IAC SB …` is not terminated by `IAC SE`, the entire
remainder of the chunk is dropped and none of those bytes appear in the
clean stream.  On the chunk `IAC SB 24 1 'A'` the filter returns
`[1, 65]`: the payload bytes do appear in the clean stream. -/
theorem c7_unterminated_sb_counterexample :
    processTelnetData [255, 250, 24, 1, 65] = [1, 65] ∧ ([1, 65] : List Nat) ≠ [] := by
  decide

/-- C7 amended: a subnegotiation is *not* dropped to the end of the
chunk.  `IAC SB` plus the immediately following byte are consumed as a
three-byte unit (the `cmd` range check `240..254` includes `SB`), the
payload bytes pass through into the clean stream, and a terminating
`IAC SE` is consumed; the filter keeps no carry between chunks. -/
theorem c7_sb_payload_passes_through (opt : Nat) (payload : List Nat)
    (h : 255 ∉ payload) :
    processTelnetData (255 :: 250 :: opt :: payload) = payload ∧
    processTelnetData (255 :: 250 :: opt :: (payload ++ [255, 240])) = payload := by
  constructor
  · rw [processTelnetData.eq_def]
    simp [processTelnetData_no_iac payload h]
  · rw [processTelnetData.eq_def]
    simp [processTelnetData_append_iac_se payload h]

theorem c7_sb_payload_passes_through_witness :
    processTelnetData [255, 250, 24, 1, 65] = [1, 65] ∧
    processTelnetData [255, 250, 24, 1, 65, 255, 240] = [1, 65] :=
  c7_sb_payload_passes_through 24 [1, 65] (by decide)

/-- C10: while no transfer is active, a chunk in whose accumulated
lookback buffer no ZMODEM header pattern occurs is returned unchanged
with `consumed = false` — pre-activation monitoring never modifies or
withholds display-bound bytes. -/
theorem c10_no_signature_passthrough (l : RecvState) (data : List Nat)
    (hact : l.active = false)
    (hsig : findZmodemStartIndex (l.buffer ++ data) = none) :
    (ProcessData l data).remaining = data ∧ (ProcessData l data).consumed = false := by
  simp [ProcessData, hact, hsig]

theorem c10_no_signature_passthrough_witness :
    (ProcessData ⟨false, []⟩ [104, 105]).remaining = [104, 105] ∧
    (ProcessData ⟨false, []⟩ [104, 105]).consumed = false :=
  c10_no_signature_passthrough ⟨false, []⟩ [104, 105] rfl (by decide)

/-- No ZMODEM header pattern (each starts with `0x2A` or `0x18`)
occurs in an all-zero buffer. -/
theorem bytesIndex_cons_replicate_zero (p0 : Nat) (hp : p0 ≠ 0) (pt : List Nat)
    (n : Nat) : bytesIndex (p0 :: pt) (List.replicate n 0) = none := by
  unfold bytesIndex
  rw [List.find?_eq_none]
  intro i _
  rw [List.drop_replicate]
  cases h : n - i with
  | zero => simp [List.isPrefixOf]
  | succ m => simp [List.replicate_succ, List.isPrefixOf, hp]

theorem findZmodemStartIndex_replicate_zero (n : Nat) :
    findZmodemStartIndex (List.replicate n 0) = none := by
  have h1 := bytesIndex_cons_replicate_zero 42 (by decide) [42, 24, 66, 48, 48] n
  have h2 := bytesIndex_cons_replicate_zero 42 (by decide) [42, 24, 65] n
  have h3 := bytesIndex_cons_replicate_zero 42 (by decide) [42, 24, 67] n
  have h4 := bytesIndex_cons_replicate_zero 24 (by decide) [66, 48, 48] n
  have h5 := bytesIndex_cons_replicate_zero 24 (by decide) [67, 4] n
  simp [findZmodemStartIndex, zmodemHeaderPatterns, h1, h2, h3, h4, h5]

/-- C6: the claim states that after `ProcessData` handles any chunk
while no transfer is active, the lookback buffer never exceeds a fixed
cap, oldest bytes beyond the cap having been discarded.  The code's
trim (`l.buffer = l.buffer[512:]`, contradicting its own comment "Keep
last 512 bytes") removes only the first 512 bytes once per call, so a
single signature-free 2000-byte chunk leaves a 1488-byte buffer —
larger than the 1024-byte trigger and unbounded in general. -/
theorem c6_lookback_buffer_unbounded (n : Nat) (h : 1536 < n) :
    (ProcessData ⟨false, []⟩ (List.replicate n 0)).state.buffer.length = n - 512 ∧
    (ProcessData ⟨false, []⟩ (List.replicate n 0)).consumed = false ∧
    1024 < (ProcessData ⟨false, []⟩ (List.replicate n 0)).state.buffer.length := by
  have hf := findZmodemStartIndex_replicate_zero n
  have hn : 1024 < n := by omega
  refine ⟨?_, ?_, ?_⟩ <;>
    (simp [ProcessData, hf, List.drop_replicate, hn]; try omega)

theorem c6_lookback_buffer_unbounded_witness :
    (ProcessData ⟨false, []⟩ (List.replicate 2000 0)).state.buffer.length = 2000 - 512 ∧
    (ProcessData ⟨false, []⟩ (List.replicate 2000 0)).consumed = false ∧
    1024 < (ProcessData ⟨false, []⟩ (List.replicate 2000 0)).state.buffer.length :=
  c6_lookback_buffer_unbounded 2000 (by decide)

/-- C3: binary-transfer exclusivity at the session level.  First
conjunct: a chunk that activates the receiver (`consumed = true` from
the inactive state) produces no display output and leaves the receiver
active.  Second conjunct: from any active-receiver state, every
subsequent chunk produces no display output ("data" message) and is
written, telnet-cleaned, to the rz subprocess stdin — for every value
of the time-dependent suppression flag. -/
theorem c3_transfer_display_exclusivity :
    (∀ (st : RecvState) (s : Bool) (c : List Nat), st.active = false →
      (ProcessData st c).consumed = true →
      (readTelnetStep st s c).2.display = none ∧
      (readTelnetStep st s c).1.active = true) ∧
    (∀ (st : RecvState) (inputs : List (Bool × List Nat)), st.active = true →
      (readTelnetRun st inputs).map SessionOutput.display =
        List.replicate inputs.length none ∧
      (readTelnetRun st inputs).map SessionOutput.rzWrite =
        inputs.map (fun q => processTelnetData q.2)) := by
  constructor
  · intro st s c hact hcons
    unfold readTelnetStep
    unfold ProcessData at hcons ⊢
    simp only [hact] at hcons ⊢
    cases hsig : findZmodemStartIndex (st.buffer ++ c) with
    | none => simp [hsig] at hcons
    | some startIdx => simp [hsig]
  · intro st inputs
    induction inputs generalizing st with
    | nil => intro _; simp [readTelnetRun]
    | cons q rest ih =>
      intro hact
      obtain ⟨s, c⟩ := q
      have hstep : readTelnetStep st s c =
          (st, ⟨none, processTelnetData c⟩) := by
        unfold readTelnetStep ProcessData
        simp [hact]
      have := ih st hact
      simp [readTelnetRun, hstep, this.1, this.2, List.replicate_succ]

theorem c3_transfer_display_exclusivity_witness :
    (readTelnetStep ⟨false, []⟩ false [42, 42, 24, 66, 48, 48]).2.display = none ∧
    (readTelnetRun ⟨true, []⟩ [(false, [104])]).map SessionOutput.display = [none] :=
  ⟨(c3_transfer_display_exclusivity.1 ⟨false, []⟩ false [42, 42, 24, 66, 48, 48]
      rfl (by decide)).1,
   (c3_transfer_display_exclusivity.2 ⟨true, []⟩ [(false, [104])] rfl).1⟩

/-! ## normalizeCSISGRAny (final ambiguous-SGR normalization pass) -/

/-- A CSI final byte: `0x40 ≤ c ≤ 0x7E`. -/
def isFinalByte (c : Nat) : Bool := decide (64 ≤ c) && decide (c ≤ 126)

/-- The parameter-validity test of `normalizeCSISGRAny`: a semicolon or
an ASCII digit. -/
def sgrParamOK (d : Nat) : Bool := d == 59 || (decide (48 ≤ d) && decide (d ≤ 57))

/-- The final-byte rewrite of `normalizeCSISGRAny`: private sequences
(first parameter byte a literal `?`) are untouched; otherwise uppercase
`M` becomes `m` and lowercase `j` becomes `J` when all parameter bytes
are digits/semicolons.  (When the parameter list is empty the Go code
reads `in[i+2]`, which is then the final byte itself — never `?`, since
`?` is not a final byte — so `isPrivate` is exactly "first parameter
byte is `?`".) -/
def fixFinal (params : List Nat) (c : Nat) : Nat :=
  if params.head? = some 63 then c
  else if c = 77 then (if params.all sgrParamOK then 109 else 77)
  else if c = 106 then (if params.all sgrParamOK then 74 else 106)
  else c

/-- Termination helper for `normCore`: the bytes after the final byte
are fewer than the whole CSI sequence. -/
theorem dropWhile_tail_length_lt (p : Nat → Bool) (x y : Nat) (l : List Nat) :
    (l.dropWhile p).tail.length < (x :: y :: l).length := by
  have h1 : (l.dropWhile p).length ≤ l.length := (List.dropWhile_suffix _).length_le
  have h2 : (l.dropWhile p).tail.length ≤ (l.dropWhile p).length := by
    cases l.dropWhile p <;> simp
  simp only [List.length_cons]
  omega

/-- The scanning loop of `normalizeCSISGRAny` (without the initial
`len < 3` guard): on `ESC [` the parameter bytes up to the first final
byte are copied, the final byte is rewritten by `fixFinal`, and
scanning resumes after it; a CSI with no final byte is copied verbatim
to the end of the input; all other bytes are copied unchanged.  8-bit
`0x9B` is deliberately not treated as CSI (see the source comment). -/
def normCore : List Nat → List Nat
  | [] => []
  | [b] => [b]
  | b :: b2 :: rest =>
    if b = 27 ∧ b2 = 91 then
      let params := rest.takeWhile (fun c => !isFinalByte c)
      let restF := rest.dropWhile (fun c => !isFinalByte c)
      if hne : restF = [] then 27 :: 91 :: rest
      else 27 :: 91 :: (params ++ fixFinal params (restF.head hne) :: normCore restF.tail)
    else b :: normCore (b2 :: rest)
termination_by l => l.length
decreasing_by
  · exact dropWhile_tail_length_lt _ _ _ _
  · simp [Nat.lt_succ_iff]

/-- `normalizeCSISGRAny` from the main module: inputs shorter than
three bytes are returned unchanged, otherwise the scan `normCore`
runs. -/
def normalizeCSISGRAny (l : List Nat) : List Nat :=
  if l.length < 3 then l else normCore l

theorem normCore_cons_ne (b b2 : Nat) (rest : List Nat) (h : ¬(b = 27 ∧ b2 = 91)) :
    normCore (b :: b2 :: rest) = b :: normCore (b2 :: rest) := by
  rw [normCore.eq_def]
  simp [h]

theorem normCore_csi_incomplete (rest : List Nat)
    (h : rest.dropWhile (fun c => !isFinalByte c) = []) :
    normCore (27 :: 91 :: rest) = 27 :: 91 :: rest := by
  rw [normCore.eq_def]
  simp [h]

theorem normCore_csi (rest : List Nat) (c : Nat) (rest2 : List Nat)
    (h : rest.dropWhile (fun x => !isFinalByte x) = c :: rest2) :
    normCore (27 :: 91 :: rest) =
      27 :: 91 :: (rest.takeWhile (fun x => !isFinalByte x) ++
        fixFinal (rest.takeWhile (fun x => !isFinalByte x)) c :: normCore rest2) := by
  rw [normCore.eq_def]
  simp [h]

theorem sgrParamOK_not_final {d : Nat} (h : sgrParamOK d = true) : isFinalByte d = false := by
  simp [sgrParamOK] at h
  simp [isFinalByte]
  omega

theorem all_sgr_head_ne_question {p : List Nat} (hp : p.all sgrParamOK = true) :
    p.head? ≠ some 63 := by
  cases p with
  | nil => simp
  | cons x xs =>
    intro h
    simp only [List.head?_cons, Option.some.injEq] at h
    subst h
    simp only [List.all_cons, Bool.and_eq_true] at hp
    exact absurd hp.1 (by decide)

theorem takeWhile_dropWhile_middle (p : Nat → Bool) (xs : List Nat) (y : Nat)
    (t : List Nat) (hxs : ∀ x ∈ xs, p x = true) (hy : p y = false) :
    (xs ++ y :: t).takeWhile p = xs ∧ (xs ++ y :: t).dropWhile p = y :: t := by
  induction xs with
  | nil => simp [List.takeWhile_cons, List.dropWhile_cons, hy]
  | cons x xs ih =>
    have hx : p x = true := hxs x (List.mem_cons_self x xs)
    have := ih (fun a ha => hxs a (List.mem_cons_of_mem x ha))
    simp [List.takeWhile_cons, List.dropWhile_cons, hx, this.1, this.2]

theorem fixFinal_final {c : Nat} (params : List Nat) (hc : isFinalByte c = true) :
    isFinalByte (fixFinal params c) = true := by
  unfold fixFinal
  split_ifs <;> first | exact hc | decide

theorem fixFinal_idem (params : List Nat) (c : Nat) :
    fixFinal params (fixFinal params c) = fixFinal params c := by
  unfold fixFinal
  by_cases h1 : params.head? = some 63
  · simp [h1]
  · by_cases h2 : params.all sgrParamOK <;>
      by_cases h3 : c = 77 <;> by_cases h4 : c = 106 <;>
      simp_all

theorem normCore_length (l : List Nat) : (normCore l).length = l.length := by
  induction l using normCore.induct with
  | case1 => simp [normCore]
  | case2 b => simp [normCore]
  | case3 b b2 rest hb restF hrest =>
    obtain ⟨h1, h2⟩ := hb
    subst h1; subst h2
    rw [normCore_csi_incomplete rest hrest]
  | case4 b b2 rest hb restF hne ih =>
    obtain ⟨h1, h2⟩ := hb
    subst h1; subst h2
    obtain ⟨c, rest2, hcr⟩ := List.exists_cons_of_ne_nil hne
    have hcr' : rest.dropWhile (fun x => !isFinalByte x) = c :: rest2 := hcr
    have ih' : (normCore rest2).length = rest2.length := by
      rw [hcr] at ih
      simpa using ih
    have hsplit : (rest.takeWhile (fun x => !isFinalByte x)).length +
        (rest.dropWhile (fun x => !isFinalByte x)).length = rest.length := by
      rw [← List.length_append, List.takeWhile_append_dropWhile]
    rw [hcr'] at hsplit
    rw [normCore_csi rest c rest2 hcr']
    simp only [List.length_cons, List.length_append] at hsplit ⊢
    omega
  | case5 b b2 rest hb ih =>
    rw [normCore_cons_ne b b2 rest hb]
    simp [ih]

theorem normCore_head? (l : List Nat) : (normCore l).head? = l.head? := by
  match l with
  | [] => simp [normCore]
  | [b] => simp [normCore]
  | b :: b2 :: rest =>
    by_cases h : b = 27 ∧ b2 = 91
    · obtain ⟨h1, h2⟩ := h
      subst h1; subst h2
      cases hcr : rest.dropWhile (fun x => !isFinalByte x) with
      | nil => rw [normCore_csi_incomplete rest hcr]
      | cons c rest2 =>
        rw [normCore_csi rest c rest2 hcr]
        simp
    · rw [normCore_cons_ne b b2 rest h]
      simp

theorem dropWhile_head_false {p : Nat → Bool} :
    ∀ {l : List Nat} {c : Nat} {r : List Nat}, l.dropWhile p = c :: r → p c = false := by
  intro l
  induction l with
  | nil =>
    intro c r h
    simp [List.dropWhile] at h
  | cons x xs ih =>
    intro c r h
    by_cases hx : p x
    · rw [List.dropWhile_cons, if_pos hx] at h
      exact ih h
    · rw [List.dropWhile_cons, if_neg hx] at h
      injection h with h1 h2
      subst h1
      simpa using hx

theorem normCore_idem (l : List Nat) : normCore (normCore l) = normCore l := by
  induction l using normCore.induct with
  | case1 => simp [normCore]
  | case2 b => simp [normCore]
  | case3 b b2 rest hb restF hrest =>
    obtain ⟨h1, h2⟩ := hb
    subst h1; subst h2
    rw [normCore_csi_incomplete rest hrest, normCore_csi_incomplete rest hrest]
  | case4 b b2 rest hb restF hne ih =>
    obtain ⟨h1, h2⟩ := hb
    subst h1; subst h2
    obtain ⟨c, rest2, hcr⟩ := List.exists_cons_of_ne_nil hne
    have hcr' : rest.dropWhile (fun x => !isFinalByte x) = c :: rest2 := hcr
    have ih' : normCore (normCore rest2) = normCore rest2 := by
      rw [hcr] at ih
      simpa using ih
    have hcfin : isFinalByte c = true := by
      have hw := dropWhile_head_false hcr'
      simpa using hw
    have hpmem : ∀ x ∈ rest.takeWhile (fun y => !isFinalByte y),
        (!isFinalByte x) = true := by
      intro x hx
      exact List.mem_takeWhile_imp (p := fun y => !isFinalByte y) hx
    have hfix : (!isFinalByte (fixFinal (rest.takeWhile (fun y => !isFinalByte y)) c))
        = false := by
      simp [fixFinal_final _ hcfin]
    have hsecond := takeWhile_dropWhile_middle (fun x => !isFinalByte x)
      (rest.takeWhile (fun y => !isFinalByte y))
      (fixFinal (rest.takeWhile (fun y => !isFinalByte y)) c) (normCore rest2)
      hpmem hfix
    rw [normCore_csi rest c rest2 hcr']
    rw [normCore_csi _ _ _ hsecond.2]
    rw [hsecond.1, fixFinal_idem, ih']
  | case5 b b2 rest hb ih =>
    rw [normCore_cons_ne b b2 rest hb]
    have hlen : 0 < (normCore (b2 :: rest)).length := by
      rw [normCore_length]
      simp
    obtain ⟨y, t, hyt⟩ := List.exists_cons_of_ne_nil (List.ne_nil_of_length_pos hlen)
    have hhead := normCore_head? (b2 :: rest)
    rw [hyt] at hhead
    simp only [List.head?_cons, Option.some.injEq] at hhead
    obtain rfl := hhead
    rw [hyt]
    rw [normCore_cons_ne _ _ _ hb]
    rw [← hyt, ih]

/-- C9: the final ambiguous-SGR normalization pass is idempotent:
applying `normalizeCSISGRAny` twice to any byte sequence yields the
same result as applying it once. -/
theorem c9_normalizeCSISGRAny_idempotent (l : List Nat) :
    normalizeCSISGRAny (normalizeCSISGRAny l) = normalizeCSISGRAny l := by
  by_cases h : l.length < 3
  · simp [normalizeCSISGRAny, h]
  · have hl : normalizeCSISGRAny l = normCore l := by simp [normalizeCSISGRAny, h]
    rw [hl]
    have hlen : ¬(normCore l).length < 3 := by rw [normCore_length]; exact h
    simp [normalizeCSISGRAny, hlen, normCore_idem]

theorem normalize_sgr_step (p : List Nat) (hp : p.all sgrParamOK = true) (c : Nat)
    (hc : isFinalByte c = true) :
    normalizeCSISGRAny (27 :: 91 :: (p ++ [c])) = 27 :: 91 :: (p ++ [fixFinal p c]) := by
  have hxs : ∀ x ∈ p, (!isFinalByte x) = true := by
    intro x hx
    have hok := List.all_eq_true.mp hp x hx
    simp [sgrParamOK_not_final hok]
  have hmid := takeWhile_dropWhile_middle (fun x => !isFinalByte x) p c [] hxs
    (by simp [hc])
  have hlen : ¬(27 :: 91 :: (p ++ [c])).length < 3 := by
    simp [List.length_cons, List.length_append]
  unfold normalizeCSISGRAny
  rw [if_neg hlen]
  rw [normCore_csi (p ++ [c]) c [] hmid.2, hmid.1]
  simp [normCore]

theorem fixFinal_M {p : List Nat} (hp : p.all sgrParamOK = true) : fixFinal p 77 = 109 := by
  unfold fixFinal
  rw [if_neg (all_sgr_head_ne_question hp)]
  simp [hp]

theorem fixFinal_j {p : List Nat} (hp : p.all sgrParamOK = true) : fixFinal p 106 = 74 := by
  unfold fixFinal
  rw [if_neg (all_sgr_head_ne_question hp)]
  simp [hp]

/-- C2: `normalizeCSISGRAny` rewrites every 7-bit CSI sequence whose
parameter bytes are digits/semicolons only and whose final byte is `M`
(`j`) to end in `m` (`J`), and leaves any CSI sequence whose first byte
after the introducer is a literal `?` completely unchanged. -/
theorem c2_ambiguous_sgr_normalization :
    (∀ p : List Nat, p.all sgrParamOK = true →
      normalizeCSISGRAny (27 :: 91 :: (p ++ [77])) = 27 :: 91 :: (p ++ [109]) ∧
      normalizeCSISGRAny (27 :: 91 :: (p ++ [106])) = 27 :: 91 :: (p ++ [74])) ∧
    (∀ (q : List Nat) (c : Nat), (∀ d ∈ q, isFinalByte d = false) →
      isFinalByte c = true →
      normalizeCSISGRAny (27 :: 91 :: 63 :: (q ++ [c])) = 27 :: 91 :: 63 :: (q ++ [c])) := by
  constructor
  · intro p hp
    refine ⟨?_, ?_⟩
    · rw [normalize_sgr_step p hp 77 (by decide), fixFinal_M hp]
    · rw [normalize_sgr_step p hp 106 (by decide), fixFinal_j hp]
  · intro q c hq hc
    have hxs : ∀ x ∈ (63 :: q), (!isFinalByte x) = true := by
      intro x hx
      rcases List.mem_cons.mp hx with rfl | hx'
      · decide
      · simp [hq x hx']
    have hmid := takeWhile_dropWhile_middle (fun x => !isFinalByte x) (63 :: q) c []
      hxs (by simp [hc])
    simp only [List.cons_append] at hmid
    have hlen : ¬(27 :: 91 :: 63 :: (q ++ [c])).length < 3 := by
      simp [List.length_cons, List.length_append]
    unfold normalizeCSISGRAny
    rw [if_neg hlen]
    rw [normCore_csi (63 :: (q ++ [c])) c [] hmid.2, hmid.1]
    have hfix : fixFinal (63 :: q) c = c := by
      unfold fixFinal
      simp
    rw [hfix]
    simp [normCore]

theorem c2_ambiguous_sgr_normalization_witness :
    normalizeCSISGRAny [27, 91, 51, 49, 77] = [27, 91, 51, 49, 109] ∧
    normalizeCSISGRAny [27, 91, 63, 49, 59, 50, 67] = [27, 91, 63, 49, 59, 50, 67] :=
  ⟨(c2_ambiguous_sgr_normalization.1 [51, 49] (by decide)).1,
   c2_ambiguous_sgr_normalization.2 [49, 59, 50] 67 (by decide) (by decide)⟩

/-! ## translatePETSCIIToANSI (legacy control translator) -/

/-- The `colorMap` of `translatePETSCIIToANSI`: PETSCII color byte ↦
ASCII digit bytes of the mapped SGR parameter string. -/
def petsciiColorMap (b : Nat) : Option (List Nat) :=
  if b = 5 then some [57, 55]
  else if b = 28 then some [51, 49]
  else if b = 30 then some [51, 50]
  else if b = 31 then some [51, 52]
  else if b = 144 then some [51, 48]
  else if b = 129 then some [51, 51]
  else if b = 149 then some [51, 51]
  else if b = 150 then some [57, 49]
  else if b = 151 then some [57, 48]
  else if b = 152 then some [51, 55]
  else if b = 153 then some [57, 50]
  else if b = 154 then some [57, 52]
  else if b = 155 then some [51, 55]
  else if b = 156 then some [51, 53]
  else if b = 158 then some [57, 51]
  else if b = 159 then some [57, 54]
  else none

/-- Emission of `translatePETSCIIToANSI` for every byte except CR
(`0x0D`): bell/tab pass through, the charset-switch bytes
`0x0E`/`0x0F`/`0x8E` emit nothing (they only mutate the session
charset, which does not affect this translation pass), cursor moves and
clear/home/reverse-video become their ANSI sequences, color bytes
become SGR sequences, everything else passes through. -/
def petsciiEmit (b : Nat) : List Nat :=
  if b = 7 then [7]
  else if b = 9 then [9]
  else if b = 14 ∨ b = 15 ∨ b = 142 then []
  else if b = 17 then [27, 91, 66]
  else if b = 145 then [27, 91, 65]
  else if b = 29 then [27, 91, 67]
  else if b = 157 then [27, 91, 68]
  else if b = 20 then [8, 32, 8]
  else if b = 19 then [27, 91, 72]
  else if b = 147 then [27, 91, 50, 74, 27, 91, 72]
  else if b = 18 then [27, 91, 55, 109]
  else if b = 146 then [27, 91, 50, 55, 109]
  else match petsciiColorMap b with
    | some sgr => 27 :: 91 :: (sgr ++ [109])
    | none => [b]

/-- Termination helper: the suffix after a CR run is shorter than the
input starting at the run. -/
theorem dropWhile_length_lt_cons (p : Nat → Bool) (x : Nat) (l : List Nat) :
    (l.dropWhile p).length < (x :: l).length := by
  have h := (List.dropWhile_suffix (l := l) p).length_le
  simp only [List.length_cons]
  omega

/-- `translatePETSCIIToANSI` from the main module.  On CR (`0x0D`) the
source skips all immediately following CRs, emits `\r`, and appends
`\n` unless the next remaining byte is already `\n`; all other bytes
are translated independently by `petsciiEmit`. -/
def translatePETSCIIToANSI : List Nat → List Nat
  | [] => []
  | b :: rest =>
    if b = 13 then
      let r := rest.dropWhile (fun x => x == 13)
      13 :: (if r.head? = some 10 then translatePETSCIIToANSI r
             else 10 :: translatePETSCIIToANSI r)
    else petsciiEmit b ++ translatePETSCIIToANSI rest
termination_by l => l.length
decreasing_by
  all_goals first
    | exact dropWhile_length_lt_cons _ _ _
    | simp [Nat.lt_succ_iff]

theorem petscii_cons_ne {b : Nat} (hb : b ≠ 13) (rest : List Nat) :
    translatePETSCIIToANSI (b :: rest) =
      petsciiEmit b ++ translatePETSCIIToANSI rest := by
  rw [translatePETSCIIToANSI.eq_def]
  simp [hb]

theorem petscii_cons_cr (rest : List Nat) :
    translatePETSCIIToANSI (13 :: rest) =
      13 :: (if (rest.dropWhile (fun x => x == 13)).head? = some 10
        then translatePETSCIIToANSI (rest.dropWhile (fun x => x == 13))
        else 10 :: translatePETSCIIToANSI (rest.dropWhile (fun x => x == 13))) := by
  rw [translatePETSCIIToANSI.eq_def]
  simp

theorem dropWhile_cr_replicate (t : List Nat) : ∀ m : Nat,
    (List.replicate m 13 ++ t).dropWhile (fun x => x == 13) =
      t.dropWhile (fun x => x == 13) := by
  intro m
  induction m with
  | zero => simp
  | succ m ih =>
    rw [List.replicate_succ, List.cons_append, List.dropWhile_cons]
    simp [ih]

theorem dropWhile_cr_head_ne {t : List Nat} (h : t.head? ≠ some 13) :
    t.dropWhile (fun x => x == 13) = t := by
  cases t with
  | nil => rfl
  | cons x xs =>
    have hx : x ≠ 13 := by
      intro hh
      exact h (by rw [List.head?_cons, hh])
    rw [List.dropWhile_cons]
    simp [hx]

/-- A run of `n ≥ 1` CR bytes at the start of the input, followed by
data not starting with CR or LF, translates to exactly one CR LF. -/
theorem petscii_cr_run (n : Nat) (hn : 1 ≤ n) (t : List Nat)
    (ht13 : t.head? ≠ some 13) (ht10 : t.head? ≠ some 10) :
    translatePETSCIIToANSI (List.replicate n 13 ++ t) =
      13 :: 10 :: translatePETSCIIToANSI t := by
  obtain ⟨m, rfl⟩ : ∃ m, n = m + 1 := ⟨n - 1, by omega⟩
  rw [List.replicate_succ, List.cons_append, petscii_cons_cr,
    dropWhile_cr_replicate, dropWhile_cr_head_ne ht13]
  simp [ht10]

/-- `translatePETSCIIToANSI` is compositional at a boundary that does
not split a CR run (the prefix does not end in CR). -/
theorem petscii_append_aux : ∀ (N : Nat) (s u : List Nat), s.length ≤ N →
    s.getLast? ≠ some 13 →
    translatePETSCIIToANSI (s ++ u) =
      translatePETSCIIToANSI s ++ translatePETSCIIToANSI u := by
  intro N
  induction N with
  | zero =>
    intro s u hlen _
    match s with
    | [] => simp [translatePETSCIIToANSI]
    | b :: s' => simp at hlen
  | succ N ih =>
    intro s u hlen hlast
    match s with
    | [] => simp [translatePETSCIIToANSI]
    | b :: s' =>
      by_cases hb : b = 13
      · subst hb
        have hs' : s' ≠ [] := by
          intro h
          subst h
          simp at hlast
        have hlast' : s'.getLast? ≠ some 13 := by
          cases s' with
          | nil => exact absurd rfl hs'
          | cons x xs => rwa [List.getLast?_cons_cons] at hlast
        have hdw_ne : s'.dropWhile (fun x => x == 13) ≠ [] := by
          intro hdw
          have hall := List.dropWhile_eq_nil_iff.mp hdw
          have hmem := List.getLast_mem hs'
          have h13 := hall _ hmem
          simp only [beq_iff_eq] at h13
          rw [List.getLast?_eq_getLast_of_ne_nil hs', h13] at hlast'
          exact hlast' rfl
        have hsplit : (s' ++ u).dropWhile (fun x => x == 13) =
            s'.dropWhile (fun x => x == 13) ++ u := by
          rw [List.dropWhile_append]
          simp only [List.isEmpty_iff]
          rw [if_neg hdw_ne]
        have hhead : ((s'.dropWhile (fun x => x == 13)) ++ u).head? =
            (s'.dropWhile (fun x => x == 13)).head? :=
          List.head?_append_of_ne_nil _ hdw_ne
        have hlast_dw : (s'.dropWhile (fun x => x == 13)).getLast? ≠ some 13 := by
          obtain ⟨pre, hpre⟩ := List.dropWhile_suffix (l := s') (fun x => x == 13)
          rw [← hpre, List.getLast?_append_of_ne_nil pre hdw_ne] at hlast'
          exact hlast'
        have hlen_dw : (s'.dropWhile (fun x => x == 13)).length ≤ N := by
          have h1 := (List.dropWhile_suffix (l := s') (fun x => x == 13)).length_le
          simp only [List.length_cons] at hlen
          omega
        have hrec := ih (s'.dropWhile (fun x => x == 13)) u hlen_dw hlast_dw
        rw [List.cons_append, petscii_cons_cr, petscii_cons_cr, hsplit, hhead, hrec]
        by_cases h10 : (s'.dropWhile (fun x => x == 13)).head? = some 10
        · simp [h10]
        · simp [h10]
      · have hlen' : s'.length ≤ N := by
          simp only [List.length_cons] at hlen
          omega
        rw [List.cons_append, petscii_cons_ne hb, petscii_cons_ne hb]
        cases s' with
        | nil => simp [translatePETSCIIToANSI]
        | cons x xs =>
          have hlast' : (x :: xs).getLast? ≠ some 13 := by
            rwa [List.getLast?_cons_cons] at hlast
          rw [ih (x :: xs) u hlen' hlast', List.append_assoc]

/-- C4: in `translatePETSCIIToANSI` a lone `0x0D` not followed by
`0x0A` produces output ending in CR LF, and any run of `n ≥ 1`
consecutive `0x0D` bytes (not preceded by a CR and not followed by CR
or LF) collapses to exactly one CR LF — in particular three
consecutive `0x0D` bytes produce exactly one line break. -/
theorem c4_cr_promotion_and_collapse (s t : List Nat) (n : Nat) (hn : 1 ≤ n)
    (hs : s.getLast? ≠ some 13) (ht13 : t.head? ≠ some 13)
    (ht10 : t.head? ≠ some 10) :
    translatePETSCIIToANSI (s ++ (List.replicate n 13 ++ t)) =
      translatePETSCIIToANSI s ++ (13 :: 10 :: translatePETSCIIToANSI t) := by
  rw [petscii_append_aux s.length s _ le_rfl hs, petscii_cr_run n hn t ht13 ht10]

theorem c4_cr_promotion_and_collapse_witness :
    translatePETSCIIToANSI ([] ++ (List.replicate 3 13 ++ [])) =
      translatePETSCIIToANSI [] ++ (13 :: 10 :: translatePETSCIIToANSI []) ∧
    translatePETSCIIToANSI ([65] ++ (List.replicate 1 13 ++ [])) =
      translatePETSCIIToANSI [65] ++ (13 :: 10 :: translatePETSCIIToANSI []) :=
  ⟨c4_cr_promotion_and_collapse [] [] 3 (by decide) (by decide) (by decide) (by decide),
   c4_cr_promotion_and_collapse [65] [] 1 (by decide) (by decide) (by decide) (by decide)⟩

/-! ## handleWebSocket "connect" allow-list check -/

/-- ASCII case folding for one byte.  `strings.EqualFold` performs
Unicode simple case folding; on the ASCII hostnames/protocol names of
the allow-list the two coincide. -/
def asciiLower (b : Nat) : Nat := if 65 ≤ b ∧ b ≤ 90 then b + 32 else b

/-- `strings.EqualFold` on ASCII byte strings. -/
def eqFold (a b : List Nat) : Bool := a.map asciiLower == b.map asciiLower

/-- The fields of `BBSInfo` consulted by the allow-list check
(`handleWebSocket`, `connect` branch); the display fields are
omitted. -/
structure BBSEntry where
  host : List Nat
  port : Nat
  protocol : List Nat
deriving DecidableEq, Repr

/-- The bytes of the string literal `"telnet"`. -/
def telnetStr : List Nat := [116, 101, 108, 110, 101, 116]

/-- The bytes of the string literal `"ssh"`. -/
def sshStr : List Nat := [115, 115, 104]

/-- The `isApproved` loop of the `connect` branch: case-insensitive
host comparison (`strings.EqualFold`), exact port, and — as written in
the source — case-insensitive protocol comparison
(`strings.EqualFold(bbs.Protocol, msg.Protocol)`). -/
def isApprovedConn (list : List BBSEntry) (host : List Nat) (port : Nat)
    (protocol : List Nat) : Bool :=
  list.any (fun bbs => eqFold bbs.host host && bbs.port == port &&
    eqFold bbs.protocol protocol)

/-- What the `connect` branch does after the allow-list check. -/
inductive ConnectOutcome
  | sendError
  | dialTelnet (host : List Nat) (port : Nat)
  | dialSSH (host : List Nat) (port : Nat)
  | ignored
deriving DecidableEq, Repr

/-- The `connect` branch of `handleWebSocket` for a given effective
allow-list (the lazy refresh, a file read, is abstracted: `list` is the
allow-list in effect after it).  Unapproved requests get an error
message and `continue`; approved requests dial only when the request's
protocol is literally `"telnet"` or `"ssh"` (exact comparison at the
dispatch), otherwise nothing happens.  The charset side effect is
omitted. -/
def handleConnect (list : List BBSEntry) (host : List Nat) (port : Nat)
    (protocol : List Nat) : ConnectOutcome :=
  if isApprovedConn list host port protocol = false then ConnectOutcome.sendError
  else if protocol = telnetStr then ConnectOutcome.dialTelnet host port
  else if protocol = sshStr then ConnectOutcome.dialSSH host port
  else ConnectOutcome.ignored

/-- The matching predicate as the claim words it: host compared
case-insensitively, port and protocol exactly. -/
def claimAllowMatch (list : List BBSEntry) (host : List Nat) (port : Nat)
    (protocol : List Nat) : Bool :=
  list.any (fun bbs => eqFold bbs.host host && bbs.port == port &&
    bbs.protocol == protocol)

/-- C8 counterexample: with the allow-list entry
(`"bbs"`, 23, `"telnet"`) and the request (`"bbs"`, 23, `"TELNET"`),
the claim's matching predicate (protocol exact) does not match, so the
claim requires an error notification — but the code approves the
request via the case-insensitive protocol comparison and then, since
`"TELNET"` is not literally `"telnet"` at the dispatch, does nothing:
no error is sent (and no dial happens). -/
theorem c8_protocol_case_counterexample :
    claimAllowMatch [⟨[98, 98, 115], 23, telnetStr⟩] [98, 98, 115] 23
      [84, 69, 76, 78, 69, 84] = false ∧
    handleConnect [⟨[98, 98, 115], 23, telnetStr⟩] [98, 98, 115] 23
      [84, 69, 76, 78, 69, 84] ≠ ConnectOutcome.sendError ∧
    handleConnect [⟨[98, 98, 115], 23, telnetStr⟩] [98, 98, 115] 23
      [84, 69, 76, 78, 69, 84] = ConnectOutcome.ignored := by
  decide

/-- C8 amended: requests are matched with host AND protocol
case-insensitive, port exact.  A non-matching request gets the error
notification and no dial; a matching request dials exactly when its
protocol is literally `"telnet"` or `"ssh"`, and is otherwise ignored
with neither dial nor error; in particular every dial implies approval. -/
theorem c8_allowlist_gate (list : List BBSEntry) (host : List Nat) (port : Nat)
    (protocol : List Nat) :
    (isApprovedConn list host port protocol = false →
      handleConnect list host port protocol = ConnectOutcome.sendError) ∧
    (isApprovedConn list host port protocol = true → protocol = telnetStr →
      handleConnect list host port protocol = ConnectOutcome.dialTelnet host port) ∧
    (isApprovedConn list host port protocol = true → protocol = sshStr →
      handleConnect list host port protocol = ConnectOutcome.dialSSH host port) ∧
    (isApprovedConn list host port protocol = true → protocol ≠ telnetStr →
      protocol ≠ sshStr →
      handleConnect list host port protocol = ConnectOutcome.ignored) ∧
    (handleConnect list host port protocol ≠ ConnectOutcome.sendError →
      isApprovedConn list host port protocol = true) := by
  refine ⟨?_, ?_, ?_, ?_, ?_⟩
  · intro h
    simp [handleConnect, h]
  · intro h hp
    subst hp
    unfold handleConnect
    rw [h]
    simp
  · intro h hp
    subst hp
    unfold handleConnect
    rw [h]
    simp [telnetStr, sshStr]
  · intro h hp1 hp2
    simp [handleConnect, h, hp1, hp2]
  · intro h
    by_cases ha : isApprovedConn list host port protocol = true
    · exact ha
    · exact absurd (by simp [handleConnect, Bool.eq_false_iff.mpr ha]) h

theorem c8_allowlist_gate_witness :
    handleConnect [⟨[98, 98, 115], 23, telnetStr⟩] [98, 98, 115] 23 telnetStr =
      ConnectOutcome.dialTelnet [98, 98, 115] 23 ∧
    handleConnect [] [98, 98, 115] 23 telnetStr = ConnectOutcome.sendError :=
  ⟨(c8_allowlist_gate [⟨[98, 98, 115], 23, telnetStr⟩] [98, 98, 115] 23
      telnetStr).2.1 (by decide) rfl,
   (c8_allowlist_gate [] [98, 98, 115] 23 telnetStr).1 (by decide)⟩
